import Mathlib

/-!
Verification development for `sandbox/utils/code_cache.py` (SandboxFusion):
a content-addressed, disk-backed cache of code files.

The Python module is shallowly embedded: the filesystem state visible to the
cache (the flat cache directory) is a `CacheState`, each file an entry with a
name, verbatim content and a timestamp (written once by `write_text` and
refreshed by `touch`; the code uses `st_mtime` for TTL age and `st_atime` for
eviction ordering, and both are set together by every write/touch the module
performs, so one field represents both).  Wall-clock instants (`time.time()`,
`st_mtime`) are modelled as integers; byte sizes (`st_size`) are naturals and
equal the UTF-8 byte length of the content, matching `Path.write_text`.
`hashlib.sha256(...).hexdigest()` is embedded as a full SHA-256 (FIPS 180-4)
over the UTF-8 bytes of the input string.
-/

/-! ### SHA-256 over byte lists (embeds `hashlib.sha256(...).hexdigest()`) -/

def w32 : Nat := 4294967296

def rotr (n x : Nat) : Nat := ((x >>> n) ||| (x <<< (32 - n))) % w32

def smallSigma0 (x : Nat) : Nat := (rotr 7 x) ^^^ (rotr 18 x) ^^^ (x >>> 3)

def smallSigma1 (x : Nat) : Nat := (rotr 17 x) ^^^ (rotr 19 x) ^^^ (x >>> 10)

def bigSigma0 (x : Nat) : Nat := (rotr 2 x) ^^^ (rotr 13 x) ^^^ (rotr 22 x)

def bigSigma1 (x : Nat) : Nat := (rotr 6 x) ^^^ (rotr 11 x) ^^^ (rotr 25 x)

structure HState where
  a : Nat
  b : Nat
  c : Nat
  d : Nat
  e : Nat
  f : Nat
  g : Nat
  h : Nat

def sha256K : List Nat :=
  [1116352408, 1899447441, 3049323471, 3921009573, 961987163, 1508970993,
   2453635748, 2870763221, 3624381080, 310598401, 607225278, 1426881987,
   1925078388, 2162078206, 2614888103, 3248222580, 3835390401, 4022224774,
   264347078, 604807628, 770255983, 1249150122, 1555081692, 1996064986,
   2554220882, 2821834349, 2952996808, 3210313671, 3336571891, 3584528711,
   113926993, 338241895, 666307205, 773529912, 1294757372, 1396182291,
   1695183700, 1986661051, 2177026350, 2456956037, 2730485921, 2820302411,
   3259730800, 3345764771, 3516065817, 3600352804, 4094571909, 275423344,
   430227734, 506948616, 659060556, 883997877, 958139571, 1322822218,
   1537002063, 1747873779, 1955562222, 2024104815, 2227730452, 2361852424,
   2428436474, 2756734187, 3204031479, 3329325298]

def initH : HState :=
  ⟨1779033703, 3144134277, 1013904242, 2773480762,
   1359893119, 2600822924, 528734635, 1541459225⟩

def extendSchedule : Nat → List Nat → List Nat
  | 0, w => w
  | n + 1, w =>
    let len := w.length
    let nw := (smallSigma1 (w.getD (len - 2) 0) + w.getD (len - 7) 0 +
               smallSigma0 (w.getD (len - 15) 0) + w.getD (len - 16) 0) % w32
    extendSchedule n (w ++ [nw])

def compressStep (s : HState) (kw : Nat × Nat) : HState :=
  let ch := (s.e &&& s.f) ^^^ ((s.e ^^^ 0xffffffff) &&& s.g)
  let maj := (s.a &&& s.b) ^^^ (s.a &&& s.c) ^^^ (s.b &&& s.c)
  let t1 := (s.h + bigSigma1 s.e + ch + kw.1 + kw.2) % w32
  let t2 := (bigSigma0 s.a + maj) % w32
  ⟨(t1 + t2) % w32, s.a, s.b, s.c, (s.d + t1) % w32, s.e, s.f, s.g⟩

def addH (x y : HState) : HState :=
  ⟨(x.a + y.a) % w32, (x.b + y.b) % w32, (x.c + y.c) % w32, (x.d + y.d) % w32,
   (x.e + y.e) % w32, (x.f + y.f) % w32, (x.g + y.g) % w32, (x.h + y.h) % w32⟩

def bytesToWords : List Nat → List Nat
  | b0 :: b1 :: b2 :: b3 :: rest => (b0 * 16777216 + b1 * 65536 + b2 * 256 + b3) :: bytesToWords rest
  | _ => []

def processChunk (s : HState) (chunk : List Nat) : HState :=
  let w := extendSchedule 48 (bytesToWords chunk)
  addH s ((sha256K.zip w).foldl compressStep s)

def lengthBytes (n : Nat) : List Nat :=
  [(n >>> 56) % 256, (n >>> 48) % 256, (n >>> 40) % 256, (n >>> 32) % 256,
   (n >>> 24) % 256, (n >>> 16) % 256, (n >>> 8) % 256, n % 256]

def padMessage (msg : List Nat) : List Nat :=
  let z := (64 - (msg.length + 9) % 64) % 64
  msg ++ [128] ++ List.replicate z 0 ++ lengthBytes (msg.length * 8)

def chunks64Aux : Nat → List Nat → List (List Nat)
  | 0, _ => []
  | _, [] => []
  | fuel + 1, b :: rest => ((b :: rest).take 64) :: chunks64Aux fuel ((b :: rest).drop 64)

def chunks64 (l : List Nat) : List (List Nat) := chunks64Aux l.length l

def wordBytes (w : Nat) : List Nat :=
  [(w >>> 24) % 256, (w >>> 16) % 256, (w >>> 8) % 256, w % 256]

def digestBytes (s : HState) : List Nat :=
  wordBytes s.a ++ wordBytes s.b ++ wordBytes s.c ++ wordBytes s.d ++
  wordBytes s.e ++ wordBytes s.f ++ wordBytes s.g ++ wordBytes s.h

def hexChar (n : Nat) : Char := if n < 10 then Char.ofNat (48 + n) else Char.ofNat (87 + n)

def hexByte (b : Nat) : List Char := [hexChar (b / 16), hexChar (b % 16)]

def sha256hex (msg : List Nat) : String :=
  String.mk (((digestBytes ((chunks64 (padMessage msg)).foldl processChunk initH)).map hexByte).flatten)

/-! ### UTF-8 encoding (embeds Python `str.encode('utf-8')`) -/

def utf8EncodeCharNat (c : Nat) : List Nat :=
  if c < 128 then [c]
  else if c < 2048 then [192 ||| (c >>> 6), 128 ||| (c &&& 63)]
  else if c < 65536 then
    [224 ||| (c >>> 12), 128 ||| ((c >>> 6) &&& 63), 128 ||| (c &&& 63)]
  else
    [240 ||| (c >>> 18), 128 ||| ((c >>> 12) &&& 63), 128 ||| ((c >>> 6) &&& 63), 128 ||| (c &&& 63)]

def utf8Bytes (s : String) : List Nat :=
  (s.data.map (fun ch => utf8EncodeCharNat ch.toNat)).flatten

/-- UTF-8 byte length of a string; this is `st_size` of a file written by
`Path.write_text` with that content. -/
def byteSize (s : String) : Nat := (utf8Bytes s).length

/-! ### Key derivation (`CodeCache._compute_hash`) -/

/-- The digest input `f"{language}:{suffix}:{code}"` built by `_compute_hash`. -/
def hashContent (code language suffix : String) : String :=
  language ++ ":" ++ suffix ++ ":" ++ code

/-- `CodeCache._compute_hash`: sha256 hexdigest of the UTF-8 bytes of
`f"{language}:{suffix}:{code}"`. -/
def compute_hash (code language suffix : String) : String :=
  sha256hex (utf8Bytes (hashContent code language suffix))

/-! ### Cache data model

A cache entry is a file in the flat cache directory: a name
(`{hex_key}{suffix}`), verbatim content, and a timestamp (set by
`write_text`, refreshed by `touch()`; the module reads it back through
`st_mtime` for TTL age and `st_atime` for eviction ordering, and every
write/touch it performs sets both, so a single field represents both). -/

structure FileEntry where
  name : String
  content : String
  mtime : Int
deriving DecidableEq

/-- The part of the filesystem visible to the cache: whether `cache_dir`
exists, and the files directly under it. -/
structure CacheState where
  dirExists : Bool
  files : List FileEntry
deriving DecidableEq

/-- The configuration held by a `CodeCache` object after `__init__`. -/
structure CodeCache where
  cache_dir : String
  max_size_bytes : Nat
  ttl_seconds : Int
deriving DecidableEq

/-- `CodeCache.__init__`: defaults `cache_dir` to `/tmp/sandbox_code_cache`
and sets `max_size_bytes = max_size_mb * 1024 * 1024`. -/
def CodeCache.init (cache_dir : Option String) (max_size_mb : Nat) (ttl_seconds : Int) : CodeCache :=
  ⟨cache_dir.getD "/tmp/sandbox_code_cache", max_size_mb * 1024 * 1024, ttl_seconds⟩

/-- `__init__` also calls `_ensure_cache_dir` (`mkdir(parents=True, exist_ok=True)`). -/
def ensure_cache_dir (st : CacheState) : CacheState :=
  ⟨true, st.files⟩

/-- The file name `f"{code_hash}{suffix}"` used by both accessor and writer. -/
def entryName (code language suffix : String) : String :=
  compute_hash code language suffix ++ suffix

/-- `str(cache_file)` for an entry name, i.e. `cache_dir / name`. -/
def filePath (c : CodeCache) (name : String) : String :=
  c.cache_dir ++ "/" ++ name

/-- `cache_file.exists()` / reading the entry: the directory is flat, a
lookup is by file name. -/
def findFile (st : CacheState) (name : String) : Option FileEntry :=
  st.files.find? (fun f => f.name == name)

/-- `cache_file.unlink()`. -/
def removeFile (st : CacheState) (name : String) : CacheState :=
  ⟨st.dirExists, st.files.filter (fun f => f.name != name)⟩

/-- `cache_file.touch()`: refresh the timestamp, keep the content. -/
def touchFile (st : CacheState) (name : String) (now : Int) : CacheState :=
  ⟨st.dirExists, st.files.map (fun f => if f.name == name then ⟨f.name, f.content, now⟩ else f)⟩

/-- `cache_file.write_text(code)` (only reached when no file exists at the
path; filesystem semantics replace any same-named file). -/
def writeFile (st : CacheState) (name content : String) (now : Int) : CacheState :=
  ⟨st.dirExists, st.files.filter (fun f => f.name != name) ++ [⟨name, content, now⟩]⟩

/-- `CodeCache._get_cache_size`: total `st_size` of the files directly under
the cache root. -/
def sumSizes (l : List FileEntry) : Nat :=
  (l.map (fun f => byteSize f.content)).sum

def get_cache_size (st : CacheState) : Nat :=
  sumSizes st.files

/-- The sort key of `_cleanup_if_needed`: Python sorts the list of tuples
`(st_atime, Path)`, i.e. by timestamp with the path (here: the name, all
files being in one directory) as tie-break. -/
def fileLE (a b : FileEntry) : Bool :=
  decide (a.mtime < b.mtime ∨ (a.mtime = b.mtime ∧ a.name ≤ b.name))

def sortFiles (l : List FileEntry) : List FileEntry :=
  l.mergeSort fileLE

/-- The deletion loop of `_cleanup_if_needed`.  `current` is the running
size counter, the list holds the not-yet-visited sorted candidates.  The
loop breaks as soon as `current_size <= target_size` where
`target_size = max_size_bytes * 0.8`; over the exact rationals that
comparison is `5 * current <= 4 * max_size_bytes`, which is how it is
written here.  `bad` marks files whose `stat()`/`unlink()` raises an
`OSError`; the Python loop has no handler, so the exception propagates,
modelled by `Except.error` carrying the directory state at that moment. -/
def evictLoop (c : CodeCache) (bad : String → Bool) :
    List FileEntry → Int → CacheState → Except CacheState CacheState
  | [], _, st => .ok st
  | f :: rest, current, st =>
    if 5 * current ≤ 4 * (c.max_size_bytes : Int) then .ok st
    else if bad f.name then .error st
    else evictLoop c bad rest (current - (byteSize f.content : Int)) (removeFile st f.name)

/-- `CodeCache._cleanup_if_needed`, with the per-file I/O-failure oracle. -/
def cleanup_if_needed_err (c : CodeCache) (bad : String → Bool) (st : CacheState) :
    Except CacheState CacheState :=
  let current := get_cache_size st
  if current > c.max_size_bytes then
    evictLoop c bad (sortFiles st.files) (current : Int) st
  else .ok st

/-- `CodeCache._cleanup_if_needed` on the happy path (no I/O errors). -/
def cleanup_if_needed (c : CodeCache) (st : CacheState) : CacheState :=
  match cleanup_if_needed_err c (fun _ => false) st with
  | .ok st1 => st1
  | .error st1 => st1

/-- `CodeCache.get_cached_file`: returns the new directory state and the
optional hit path. -/
def get_cached_file (c : CodeCache) (st : CacheState) (now : Int)
    (code language suffix : String) : CacheState × Option String :=
  let name := entryName code language suffix
  match findFile st name with
  | none => (st, none)
  | some f =>
    if now - f.mtime < c.ttl_seconds then
      (touchFile st name now, some (filePath c name))
    else
      (removeFile st name, none)

/-- `CodeCache.cache_code_file`.  `none` models a propagated I/O error:
`write_text` raises when the cache directory does not exist. -/
def cache_code_file (c : CodeCache) (st : CacheState) (now : Int)
    (code language suffix : String) : Option (CacheState × String) :=
  let name := entryName code language suffix
  match findFile st name with
  | some _ => some (touchFile st name now, filePath c name)
  | none =>
    if st.dirExists then
      some (cleanup_if_needed c (writeFile st name code now), filePath c name)
    else
      none

/-- `CodeCache.get_or_cache`. -/
def get_or_cache (c : CodeCache) (st : CacheState) (now : Int)
    (code language suffix : String) : Option (CacheState × String × Bool) :=
  match get_cached_file c st now code language suffix with
  | (st1, some p) => some (st1, p, true)
  | (st1, none) =>
    (cache_code_file c st1 now code language suffix).map (fun r => (r.1, r.2, false))

/-- `CodeCache.clear`: `rmtree` then recreate, but only when the root exists. -/
def clear (st : CacheState) : CacheState :=
  if st.dirExists then ⟨true, []⟩ else st

/-- The dictionary returned by `CodeCache.get_stats`; `cache_dir` is `none`
when the returned Python dict has no `'cache_dir'` key. -/
structure CacheStats where
  num_files : Nat
  total_size_mb : ℚ
  max_size_mb : ℚ
  cache_dir : Option String
deriving DecidableEq

/-- `CodeCache.get_stats`. -/
def get_stats (c : CodeCache) (st : CacheState) : CacheStats :=
  if st.dirExists then
    ⟨st.files.length, (get_cache_size st : ℚ) / 1024 / 1024,
     (c.max_size_bytes : ℚ) / 1024 / 1024, some c.cache_dir⟩
  else
    ⟨0, 0, (c.max_size_bytes : ℚ) / 1024 / 1024, none⟩

/-- Spec-side Entry Accessor, following the spec's words (an independent
`lookup(key, suffix)` that receives the already-derived key, §4.2). -/
def lookup_spec (c : CodeCache) (st : CacheState) (now : Int)
    (key suffix : String) : CacheState × Option String :=
  let name := key ++ suffix
  match findFile st name with
  | none => (st, none)
  | some f =>
    if now - f.mtime < c.ttl_seconds then
      (touchFile st name now, some (filePath c name))
    else
      (removeFile st name, none)

/-- Spec-side Entry Writer, following the spec's words (`store(key, suffix,
code)` on an already-derived key, §4.3). -/
def store_spec (c : CodeCache) (st : CacheState) (now : Int)
    (key suffix code : String) : Option (CacheState × String) :=
  let name := key ++ suffix
  match findFile st name with
  | some _ => some (touchFile st name now, filePath c name)
  | none =>
    if st.dirExists then
      some (cleanup_if_needed c (writeFile st name code now), filePath c name)
    else
      none

/-- Spec-side combined accessor, following the spec's words (§4.4): derive
the key once, attempt the lookup, on absent perform the store, and report
whether the result came from an existing entry. -/
def get_or_cache_spec (c : CodeCache) (st : CacheState) (now : Int)
    (code language suffix : String) : Option (CacheState × String × Bool) :=
  let key := compute_hash code language suffix
  match lookup_spec c st now key suffix with
  | (st1, some p) => some (st1, p, true)
  | (st1, none) =>
    (store_spec c st1 now key suffix code).map (fun r => (r.1, r.2, false))

/-- Well-formedness of a directory state: file names are unique (the
filesystem namespace enforces this) and a non-existent directory holds no
files. -/
def WF (st : CacheState) : Prop :=
  (st.files.map (fun f => f.name)).Nodup ∧ (st.dirExists = false → st.files = [])

instance (st : CacheState) : Decidable (WF st) := by
  unfold WF; infer_instance

/-! ### Helper lemmas -/

/-- Over exact arithmetic, `current <= max * 0.8` (the Python float
comparison against `target_size`) is the integer comparison used in
`evictLoop`. -/
lemma floor_iff (m : Nat) (current : Int) :
    5 * current ≤ 4 * (m : Int) ↔ (current : ℚ) ≤ (m : ℚ) * 0.8 := by
  have h08 : (0.8 : ℚ) = 4 / 5 := by norm_num
  constructor
  · intro h
    have h2 : ((5 * current : Int) : ℚ) ≤ ((4 * (m : Int) : Int) : ℚ) := by exact_mod_cast h
    push_cast at h2
    rw [h08]
    linarith
  · intro h
    rw [h08] at h
    have h2 : (5 : ℚ) * (current : ℚ) ≤ 4 * (m : ℚ) := by linarith
    exact_mod_cast h2

lemma floor_iff_nat (m n : Nat) :
    5 * (n : Int) ≤ 4 * (m : Int) ↔ (n : ℚ) ≤ (m : ℚ) * 0.8 := by
  have h := floor_iff m (n : Int)
  rwa [Int.cast_natCast] at h

lemma flatten_map_hexByte_length (l : List Nat) :
    ((l.map hexByte).flatten).length = 2 * l.length := by
  induction l with
  | nil => simp
  | cons b t ih => simp [hexByte, ih]; omega

lemma digestBytes_length (s : HState) : (digestBytes s).length = 32 := by
  simp [digestBytes, wordBytes]

lemma sha256hex_length (msg : List Nat) : (sha256hex msg).length = 64 := by
  unfold sha256hex
  rw [String.length_mk, flatten_map_hexByte_length, digestBytes_length]

/-- The key is always 64 hex characters (a 256-bit digest, hex-encoded). -/
lemma compute_hash_length (code language suffix : String) :
    (compute_hash code language suffix).length = 64 := by
  unfold compute_hash
  exact sha256hex_length _

lemma entryName_length (code language suffix : String) :
    (entryName code language suffix).length = 64 + suffix.length := by
  unfold entryName
  rw [String.length_append, compute_hash_length]

/-- Splitting at an occurrence of `:` is unambiguous when neither left part
contains `:`. -/
lemma colon_split (l1 : List Char) : ∀ (l2 r1 r2 : List Char), ':' ∉ l1 → ':' ∉ l2 →
    l1 ++ ':' :: r1 = l2 ++ ':' :: r2 → l1 = l2 ∧ r1 = r2 := by
  induction l1 with
  | nil =>
    intro l2 r1 r2 _ h2 h
    cases l2 with
    | nil => simpa using h
    | cons c t =>
      simp only [List.nil_append, List.cons_append, List.cons.injEq] at h
      have hc : ':' ∈ c :: t := by rw [← h.1]; exact List.mem_cons_self _ _
      exact absurd hc h2
  | cons c t ih =>
    intro l2 r1 r2 h1 h2 h
    cases l2 with
    | nil =>
      simp only [List.nil_append, List.cons_append, List.cons.injEq] at h
      have hc : ':' ∈ c :: t := by rw [h.1]; exact List.mem_cons_self _ _
      exact absurd hc h1
    | cons d t2 =>
      simp only [List.cons_append, List.cons.injEq] at h
      obtain ⟨he, ht⟩ := h
      obtain ⟨hteq, hr⟩ := ih t2 r1 r2 (fun hm => h1 (List.mem_cons_of_mem c hm))
        (fun hm => h2 (List.mem_cons_of_mem d hm)) ht
      exact ⟨by rw [he, hteq], hr⟩

/-- The digest input determines the triple when `language` and `suffix` are
free of the `:` delimiter. -/
lemma hashContent_inj {c1 l1 s1 c2 l2 s2 : String}
    (hl1 : ':' ∉ l1.data) (hs1 : ':' ∉ s1.data) (hl2 : ':' ∉ l2.data) (hs2 : ':' ∉ s2.data)
    (h : hashContent c1 l1 s1 = hashContent c2 l2 s2) : c1 = c2 ∧ l1 = l2 ∧ s1 = s2 := by
  have hcol : (":" : String).data = [':'] := rfl
  have hd : l1.data ++ ':' :: (s1.data ++ ':' :: c1.data) =
      l2.data ++ ':' :: (s2.data ++ ':' :: c2.data) := by
    have h0 := congrArg String.data h
    simp only [hashContent, String.data_append, hcol, List.append_assoc,
      List.singleton_append] at h0
    exact h0
  obtain ⟨hle, hrest⟩ := colon_split _ _ _ _ hl1 hl2 hd
  obtain ⟨hse, hce⟩ := colon_split _ _ _ _ hs1 hs2 hrest
  exact ⟨String.ext hce, String.ext hle, String.ext hse⟩

lemma findFile_eq_none_iff {st : CacheState} {n : String} :
    findFile st n = none ↔ ∀ f ∈ st.files, f.name ≠ n := by
  simp [findFile, List.find?_eq_none]

lemma findFile_some {st : CacheState} {n : String} {f : FileEntry}
    (h : findFile st n = some f) : f ∈ st.files ∧ f.name = n := by
  unfold findFile at h
  refine ⟨List.mem_of_find?_eq_some h, ?_⟩
  have h2 := List.find?_some h
  simpa using h2

lemma findFile_of_mem {st : CacheState}
    (hnd : (st.files.map (fun f => f.name)).Nodup)
    {f : FileEntry} (hf : f ∈ st.files) : findFile st f.name = some f := by
  cases hfind : findFile st f.name with
  | none => exact absurd rfl (findFile_eq_none_iff.mp hfind f hf)
  | some g =>
    obtain ⟨hg, hgn⟩ := findFile_some hfind
    rw [List.inj_on_of_nodup_map hnd hg hf hgn]

lemma find?_touch (l : List FileEntry) (n : String) (now : Int) :
    (l.map (fun f => if f.name == n then (⟨f.name, f.content, now⟩ : FileEntry) else f)).find?
        (fun f => f.name == n) =
      (l.find? (fun f => f.name == n)).map
        (fun f => (⟨f.name, f.content, now⟩ : FileEntry)) := by
  induction l with
  | nil => rfl
  | cons f t ih =>
    by_cases h : f.name = n
    · simp [List.find?_cons, h]
    · have hb : (f.name == n) = false := by simpa using h
      simp only [List.map_cons, hb, Bool.false_eq_true, if_false, List.find?_cons, cond_false]
      exact ih

lemma findFile_touch (st : CacheState) (n : String) (now : Int) :
    findFile (touchFile st n now) n =
      (findFile st n).map (fun f => (⟨f.name, f.content, now⟩ : FileEntry)) := by
  unfold findFile touchFile
  exact find?_touch st.files n now

lemma mem_touch_of_ne {st : CacheState} {n : String} {now : Int} {f : FileEntry}
    (hf : f ∈ st.files) (hne : f.name ≠ n) : f ∈ (touchFile st n now).files := by
  unfold touchFile
  simp only [List.mem_map]
  exact ⟨f, hf, by simp [hne]⟩

lemma touch_names (st : CacheState) (n : String) (now : Int) :
    (touchFile st n now).files.map (fun f => f.name) = st.files.map (fun f => f.name) := by
  unfold touchFile
  simp only [List.map_map]
  apply List.map_congr_left
  intro f _
  by_cases h : f.name = n <;> simp [h]

lemma WF_touch {st : CacheState} (h : WF st) (n : String) (now : Int) :
    WF (touchFile st n now) := by
  constructor
  · rw [touch_names]; exact h.1
  · intro hd
    have := h.2 hd
    unfold touchFile
    simp [this]

lemma findFile_remove_self (st : CacheState) (n : String) :
    findFile (removeFile st n) n = none := by
  rw [findFile_eq_none_iff]
  intro f hf
  unfold removeFile at hf
  simp only [List.mem_filter] at hf
  simpa using hf.2

lemma fileLE_iff {a b : FileEntry} :
    fileLE a b = true ↔ (a.mtime < b.mtime ∨ (a.mtime = b.mtime ∧ a.name ≤ b.name)) := by
  simp [fileLE]

lemma fileLE_trans : ∀ (a b c : FileEntry), fileLE a b → fileLE b c → fileLE a c := by
  intro a b c hab hbc
  rw [fileLE_iff] at *
  rcases hab with h1 | ⟨h1, h1n⟩ <;> rcases hbc with h2 | ⟨h2, h2n⟩
  · exact Or.inl (h1.trans h2)
  · exact Or.inl (h2 ▸ h1)
  · exact Or.inl (h1 ▸ h2)
  · exact Or.inr ⟨h1.trans h2, le_trans h1n h2n⟩

lemma fileLE_total : ∀ (a b : FileEntry), fileLE a b || fileLE b a := by
  intro a b
  rcases lt_trichotomy a.mtime b.mtime with h | h | h
  · simp [fileLE_iff.mpr (Or.inl h)]
  · rcases le_total a.name b.name with hn | hn
    · simp [fileLE_iff.mpr (Or.inr ⟨h, hn⟩)]
    · simp [fileLE_iff.mpr (Or.inr ⟨h.symm, hn⟩)]
  · simp [fileLE_iff.mpr (Or.inl h)]

lemma fileLE_mtime_le {a b : FileEntry} (h : fileLE a b = true) : a.mtime ≤ b.mtime := by
  rcases fileLE_iff.mp h with h1 | ⟨h1, _⟩
  · exact le_of_lt h1
  · exact le_of_eq h1

lemma sortFiles_perm (l : List FileEntry) : (sortFiles l).Perm l :=
  List.mergeSort_perm l fileLE

lemma sortFiles_sorted (l : List FileEntry) :
    (sortFiles l).Pairwise (fun a b => fileLE a b = true) :=
  List.sorted_mergeSort fileLE_trans fileLE_total l

lemma sortFiles_of_sorted {l : List FileEntry}
    (h : l.Pairwise (fun a b => fileLE a b = true)) : sortFiles l = l :=
  List.mergeSort_of_sorted h

lemma sorted_cross {l : List FileEntry}
    (h : l.Pairwise (fun a b => fileLE a b = true)) (k : Nat)
    {x y : FileEntry} (hx : x ∈ l.take k) (hy : y ∈ l.drop k) : fileLE x y = true := by
  have h2 : ((l.take k) ++ (l.drop k)).Pairwise (fun a b => fileLE a b = true) := by
    rw [List.take_append_drop]; exact h
  exact (List.pairwise_append.mp h2).2.2 x hx y hy

lemma sumSizes_perm {l1 l2 : List FileEntry} (h : l1.Perm l2) : sumSizes l1 = sumSizes l2 :=
  List.Perm.sum_eq (h.map _)

lemma sumSizes_cons (f : FileEntry) (l : List FileEntry) :
    sumSizes (f :: l) = byteSize f.content + sumSizes l := by
  simp [sumSizes]

lemma removeFile_perm {st : CacheState} {f : FileEntry} {rest : List FileEntry}
    (hperm : st.files.Perm (f :: rest))
    (hnd : ((f :: rest).map (fun g => g.name)).Nodup) :
    (removeFile st f.name).files.Perm rest := by
  have h1 : (st.files.filter (fun g => g.name != f.name)).Perm
      ((f :: rest).filter (fun g => g.name != f.name)) := hperm.filter _
  have hff : ((f :: rest).filter (fun g => g.name != f.name)) =
      rest.filter (fun g => g.name != f.name) := by
    rw [List.filter_cons]
    simp
  have hnotin : f.name ∉ rest.map (fun g => g.name) := (List.nodup_cons.mp hnd).1
  have h2 : rest.filter (fun g => g.name != f.name) = rest := by
    rw [List.filter_eq_self]
    intro a ha
    have : a.name ≠ f.name := by
      intro he
      exact hnotin (he ▸ List.mem_map_of_mem (fun g => g.name) ha)
    simpa using this
  unfold removeFile
  rw [hff, h2] at h1
  exact h1

lemma removeFile_dirExists (st : CacheState) (n : String) :
    (removeFile st n).dirExists = st.dirExists := rfl

/-- Invariant lemma for the deletion loop of `_cleanup_if_needed` on the
happy path: the loop deletes a minimal prefix of the sorted candidate list,
stopping as soon as the remaining total size reaches the floor. -/
lemma evictLoop_ok (c : CodeCache) :
    ∀ (l : List FileEntry) (st : CacheState),
      st.files.Perm l → (st.files.map (fun f => f.name)).Nodup →
      ∃ k st1,
        evictLoop c (fun _ => false) l (sumSizes l : Int) st = .ok st1 ∧
        st1.dirExists = st.dirExists ∧
        st1.files.Perm (l.drop k) ∧
        5 * (sumSizes (l.drop k) : Int) ≤ 4 * (c.max_size_bytes : Int) ∧
        ∀ j, j < k → ¬ 5 * (sumSizes (l.drop j) : Int) ≤ 4 * (c.max_size_bytes : Int) := by
  intro l
  induction l with
  | nil =>
    intro st hperm _
    refine ⟨0, st, rfl, rfl, by simpa using hperm, ?_, by omega⟩
    simp [sumSizes]
  | cons f rest ih =>
    intro st hperm hnd
    by_cases hle : 5 * (sumSizes (f :: rest) : Int) ≤ 4 * (c.max_size_bytes : Int)
    · refine ⟨0, st, ?_, rfl, by simpa using hperm, by simpa using hle, by omega⟩
      simp only [evictLoop, if_pos hle]
    · have hnd2 : ((f :: rest).map (fun g => g.name)).Nodup := (hperm.map _).nodup hnd
      have hrm : (removeFile st f.name).files.Perm rest := removeFile_perm hperm hnd2
      have hndr : ((removeFile st f.name).files.map (fun g => g.name)).Nodup := by
        have hr : (rest.map (fun g => g.name)).Nodup := (List.nodup_cons.mp hnd2).2
        exact ((hrm.map (fun g => g.name)).symm).nodup hr
      obtain ⟨k, st1, heq, hdir, hp, hfl, hmin⟩ := ih (removeFile st f.name) hrm hndr
      have harith : (sumSizes (f :: rest) : Int) - (byteSize f.content : Int) =
          (sumSizes rest : Int) := by
        rw [sumSizes_cons]; push_cast; ring
      refine ⟨k + 1, st1, ?_, ?_, hp, hfl, ?_⟩
      · simp only [evictLoop, if_neg hle]
        rw [harith]
        exact heq
      · rw [hdir]; rfl
      · intro j hj
        cases j with
        | zero => simpa using hle
        | succ j2 => exact hmin j2 (by omega)

lemma cleanup_noop (c : CodeCache) (st : CacheState)
    (h : get_cache_size st ≤ c.max_size_bytes) : cleanup_if_needed c st = st := by
  unfold cleanup_if_needed cleanup_if_needed_err
  rw [if_neg (by omega)]

/-- Characterization of an over-ceiling `_cleanup_if_needed` pass: it
deletes a minimal prefix of the LRU-sorted entry list, reaching the floor. -/
lemma cleanup_over (c : CodeCache) (st : CacheState) (h : WF st)
    (hover : get_cache_size st > c.max_size_bytes) :
    ∃ k,
      (cleanup_if_needed c st).dirExists = st.dirExists ∧
      (cleanup_if_needed c st).files.Perm ((sortFiles st.files).drop k) ∧
      5 * (sumSizes ((sortFiles st.files).drop k) : Int) ≤ 4 * (c.max_size_bytes : Int) ∧
      ∀ j, j < k →
        ¬ 5 * (sumSizes ((sortFiles st.files).drop j) : Int) ≤ 4 * (c.max_size_bytes : Int) := by
  have hperm : st.files.Perm (sortFiles st.files) := (sortFiles_perm _).symm
  obtain ⟨k, st1, heq, hdir, hp, hfl, hmin⟩ :=
    evictLoop_ok c (sortFiles st.files) st hperm h.1
  have hcl : cleanup_if_needed c st = st1 := by
    unfold cleanup_if_needed cleanup_if_needed_err
    rw [if_pos hover]
    have hsz : ((get_cache_size st : Nat) : Int) = (sumSizes (sortFiles st.files) : Int) := by
      exact_mod_cast congrArg Nat.cast (sumSizes_perm hperm)
    rw [hsz, heq]
  rw [hcl]
  exact ⟨k, hdir, hp, hfl, hmin⟩

lemma cleanup_dirExists (c : CodeCache) (st : CacheState) (h : WF st) :
    (cleanup_if_needed c st).dirExists = st.dirExists := by
  by_cases hover : get_cache_size st > c.max_size_bytes
  · exact (cleanup_over c st h hover).choose_spec.1
  · rw [cleanup_noop c st (by omega)]

lemma cleanup_subset (c : CodeCache) (st : CacheState) (h : WF st)
    {x : FileEntry} (hx : x ∈ (cleanup_if_needed c st).files) : x ∈ st.files := by
  by_cases hover : get_cache_size st > c.max_size_bytes
  · obtain ⟨k, _, hp, _, _⟩ := cleanup_over c st h hover
    have h1 : x ∈ (sortFiles st.files).drop k := hp.subset hx
    have h2 : x ∈ sortFiles st.files := (List.drop_sublist k _).subset h1
    exact (sortFiles_perm _).subset h2
  · rw [cleanup_noop c st (by omega)] at hx
    exact hx

lemma WF_cleanup (c : CodeCache) (st : CacheState) (h : WF st) :
    WF (cleanup_if_needed c st) := by
  by_cases hover : get_cache_size st > c.max_size_bytes
  · obtain ⟨k, hdir, hp, _, _⟩ := cleanup_over c st h hover
    constructor
    · have hnds : ((sortFiles st.files).map (fun f => f.name)).Nodup :=
        (((sortFiles_perm st.files).map (fun f => f.name)).symm).nodup h.1
      have hndd : (((sortFiles st.files).drop k).map (fun f => f.name)).Nodup :=
        ((List.drop_sublist k (sortFiles st.files)).map (fun f => f.name)).nodup hnds
      exact ((hp.map (fun f => f.name))).symm.nodup hndd
    · intro hdf
      have hempty : st.files = [] := h.2 (by rw [← hdir]; exact hdf)
      exfalso
      rw [get_cache_size, hempty] at hover
      simp [sumSizes] at hover
  · rw [cleanup_noop c st (by omega)]
    exact h

/-- LRU preference: if the eviction pass deletes an entry, it also deletes
every entry with a strictly older timestamp. -/
lemma cleanup_lru (c : CodeCache) (st : CacheState) (h : WF st)
    {f g : FileEntry} (_hf : f ∈ st.files) (hg : g ∈ st.files)
    (hlt : f.mtime < g.mtime)
    (hgdel : g ∉ (cleanup_if_needed c st).files) :
    f ∉ (cleanup_if_needed c st).files := by
  by_cases hover : get_cache_size st > c.max_size_bytes
  · obtain ⟨k, _, hp, _, _⟩ := cleanup_over c st h hover
    intro hfin
    have hfd : f ∈ (sortFiles st.files).drop k := hp.subset hfin
    have hgs : g ∈ sortFiles st.files := (sortFiles_perm _).symm.subset hg
    have hgt : g ∈ (sortFiles st.files).take k := by
      have hsplit : g ∈ (sortFiles st.files).take k ++ (sortFiles st.files).drop k := by
        rw [List.take_append_drop]
        exact hgs
      rcases List.mem_append.mp hsplit with h1 | h1
      · exact h1
      · exact absurd (hp.symm.subset h1) hgdel
    have hle := sorted_cross (sortFiles_sorted st.files) k hgt hfd
    exact absurd (fileLE_mtime_le hle) (by omega)
  · rw [cleanup_noop c st (by omega)] at hgdel
    exact absurd hg hgdel

/-- The strictly newest entry survives an eviction pass provided its own
size is within the floor. -/
lemma cleanup_keeps_newest (c : CodeCache) (st : CacheState) (h : WF st)
    {f : FileEntry} (hf : f ∈ st.files)
    (hmax : ∀ g ∈ st.files, g ≠ f → g.mtime < f.mtime)
    (hfit : 5 * (byteSize f.content : Int) ≤ 4 * (c.max_size_bytes : Int)) :
    f ∈ (cleanup_if_needed c st).files := by
  by_cases hover : get_cache_size st > c.max_size_bytes
  · obtain ⟨k, _, hp, _, hmin⟩ := cleanup_over c st h hover
    by_contra hfout
    have hfs : f ∈ sortFiles st.files := (sortFiles_perm _).symm.subset hf
    have hft : f ∈ (sortFiles st.files).take k := by
      have hsplit : f ∈ (sortFiles st.files).take k ++ (sortFiles st.files).drop k := by
        rw [List.take_append_drop]
        exact hfs
      rcases List.mem_append.mp hsplit with h1 | h1
      · exact h1
      · exact absurd (hp.symm.subset h1) hfout
    have hdropnil : (sortFiles st.files).drop k = [] := by
      rw [List.eq_nil_iff_forall_not_mem]
      intro y hy
      have hys : y ∈ st.files := (sortFiles_perm _).subset ((List.drop_sublist k _).subset hy)
      have hyne : y ≠ f := by
        intro he
        exact hfout (hp.symm.subset (he ▸ hy))
      have hylt : y.mtime < f.mtime := hmax y hys hyne
      have hle := sorted_cross (sortFiles_sorted st.files) k hft hy
      exact absurd (fileLE_mtime_le hle) (by omega)
    have hlen : (sortFiles st.files).length ≤ k := by
      have := congrArg List.length hdropnil
      simp only [List.length_drop, List.length_nil] at this
      omega
    have hpos : 0 < (sortFiles st.files).length := List.length_pos_of_mem hfs
    have hminlast := hmin ((sortFiles st.files).length - 1) (by omega)
    have hlen1 : ((sortFiles st.files).drop ((sortFiles st.files).length - 1)).length = 1 := by
      rw [List.length_drop]; omega
    obtain ⟨lst, hlst⟩ := List.length_eq_one.mp hlen1
    have hlmem : lst ∈ (sortFiles st.files).drop ((sortFiles st.files).length - 1) := by
      rw [hlst]; exact List.mem_singleton_self lst
    have hlstf : lst = f := by
      by_contra hne
      have hlsts : lst ∈ st.files :=
        (sortFiles_perm _).subset ((List.drop_sublist _ _).subset hlmem)
      have hftake : f ∈ (sortFiles st.files).take ((sortFiles st.files).length - 1) := by
        have hsplit : f ∈ (sortFiles st.files).take ((sortFiles st.files).length - 1) ++
            (sortFiles st.files).drop ((sortFiles st.files).length - 1) := by
          rw [List.take_append_drop]
          exact hfs
        rcases List.mem_append.mp hsplit with h1 | h1
        · exact h1
        · rw [hlst] at h1
          simp only [List.mem_singleton] at h1
          exact absurd h1.symm hne
      have hle := sorted_cross (sortFiles_sorted st.files) _ hftake hlmem
      have hlt2 : lst.mtime < f.mtime := hmax lst hlsts hne
      exact absurd (fileLE_mtime_le hle) (by omega)
    apply hminlast
    rw [hlst, hlstf]
    simpa [sumSizes] using hfit
  · rw [cleanup_noop c st (by omega)]
    exact hf

/-- Error-path characterization of the deletion loop: the Python loop has no
per-file exception handler, so the first failing candidate aborts the pass;
entries deleted before it stay deleted, the failing entry and everything
after it remain. -/
lemma evictLoop_err (c : CodeCache) (bad : String → Bool) :
    ∀ (l : List FileEntry) (st st1 : CacheState),
      st.files.Perm l → (st.files.map (fun f => f.name)).Nodup →
      evictLoop c bad l (sumSizes l : Int) st = .error st1 →
      ∃ k f rest, l.drop k = f :: rest ∧ bad f.name = true ∧
        st1.files.Perm (l.drop k) ∧
        (∀ g ∈ l.take k, bad g.name = false) ∧
        ∀ j, j ≤ k → ¬ 5 * (sumSizes (l.drop j) : Int) ≤ 4 * (c.max_size_bytes : Int) := by
  intro l
  induction l with
  | nil =>
    intro st st1 _ _ h
    simp [evictLoop] at h
  | cons f rest ih =>
    intro st st1 hperm hnd herr
    by_cases hle : 5 * (sumSizes (f :: rest) : Int) ≤ 4 * (c.max_size_bytes : Int)
    · rw [evictLoop, if_pos hle] at herr
      exact absurd herr (by simp)
    · by_cases hbad : bad f.name = true
      · rw [evictLoop, if_neg hle, if_pos hbad] at herr
        have hst : st = st1 := by
          simpa using herr
        refine ⟨0, f, rest, rfl, hbad, ?_, by simp, ?_⟩
        · rw [← hst]
          simpa using hperm
        · intro j hj
          have hj0 : j = 0 := by omega
          subst hj0
          simpa using hle
      · have hbf : bad f.name = false := by
          revert hbad
          cases bad f.name <;> simp
        rw [evictLoop, if_neg hle, hbf] at herr
        simp only [Bool.false_eq_true, if_false] at herr
        have hnd2 : ((f :: rest).map (fun g => g.name)).Nodup := (hperm.map _).nodup hnd
        have hrm : (removeFile st f.name).files.Perm rest := removeFile_perm hperm hnd2
        have hndr : ((removeFile st f.name).files.map (fun g => g.name)).Nodup := by
          have hr : (rest.map (fun g => g.name)).Nodup := (List.nodup_cons.mp hnd2).2
          exact ((hrm.map (fun g => g.name)).symm).nodup hr
        have harith : (sumSizes (f :: rest) : Int) - (byteSize f.content : Int) =
            (sumSizes rest : Int) := by
          rw [sumSizes_cons]; push_cast; ring
        rw [harith] at herr
        obtain ⟨k, f2, rest2, hdrop, hbad2, hp, htake, hmin⟩ :=
          ih (removeFile st f.name) st1 hrm hndr herr
        refine ⟨k + 1, f2, rest2, hdrop, hbad2, hp, ?_, ?_⟩
        · intro g hgmem
          rcases List.mem_cons.mp hgmem with hgf | hgt
          · rw [hgf]; exact hbf
          · exact htake g hgt
        · intro j hj
          cases j with
          | zero => simpa using hle
          | succ j2 => exact hmin j2 (by omega)

lemma write_files_of_absent {st : CacheState} {n : String}
    (habs : findFile st n = none) (content : String) (now : Int) :
    (writeFile st n content now).files = st.files ++ [⟨n, content, now⟩] := by
  unfold writeFile
  have hfe : st.files.filter (fun g => g.name != n) = st.files := by
    rw [List.filter_eq_self]
    intro a ha
    simpa using findFile_eq_none_iff.mp habs a ha
  simp only [hfe]

lemma WF_write {st : CacheState} (h : WF st) (hd : st.dirExists = true)
    (n content : String) (now : Int) : WF (writeFile st n content now) := by
  constructor
  · unfold writeFile
    simp only [List.map_append, List.map_cons, List.map_nil]
    apply List.Nodup.append
    · exact ((List.filter_sublist st.files).map (fun f => f.name)).nodup h.1
    · simp
    · intro a ha hb
      simp only [List.mem_singleton] at hb
      subst hb
      simp only [List.mem_map, List.mem_filter] at ha
      obtain ⟨g, ⟨_, hgp⟩, hgn⟩ := ha
      rw [hgn] at hgp
      simp at hgp
  · intro hdf
    unfold writeFile at hdf
    simp only at hdf
    rw [hd] at hdf
    cases hdf

/-! ### Claim C1 -/

/-- C1: for every call to `get_cached_file(code, language, suffix)`: with no
file at the derived path it returns `None` (no exception — the function is
total); with a file of age strictly below `ttl_seconds` it touches the file
and returns its path (a hit, the entry keeping its content with a refreshed
timestamp); otherwise it unlinks the file and returns `None`, and no file
remains at that path. -/
theorem C1_get_cached_file (c : CodeCache) (st : CacheState) (now : Int)
    (code language suffix : String) :
    (findFile st (entryName code language suffix) = none →
      get_cached_file c st now code language suffix = (st, none)) ∧
    (∀ f, findFile st (entryName code language suffix) = some f →
      now - f.mtime < c.ttl_seconds →
      get_cached_file c st now code language suffix =
        (touchFile st (entryName code language suffix) now,
         some (filePath c (entryName code language suffix))) ∧
      findFile (touchFile st (entryName code language suffix) now)
          (entryName code language suffix) = some ⟨f.name, f.content, now⟩) ∧
    (∀ f, findFile st (entryName code language suffix) = some f →
      ¬ now - f.mtime < c.ttl_seconds →
      (get_cached_file c st now code language suffix).2 = none ∧
      findFile (get_cached_file c st now code language suffix).1
        (entryName code language suffix) = none) := by
  refine ⟨?_, ?_, ?_⟩
  · intro h
    simp only [get_cached_file, h]
  · intro f hfind hage
    constructor
    · simp only [get_cached_file, hfind, if_pos hage]
    · rw [findFile_touch, hfind]
      rfl
  · intro f hfind hage
    refine ⟨?_, ?_⟩
    · simp only [get_cached_file, hfind, if_neg hage]
    · simp only [get_cached_file, hfind, if_neg hage]
      exact findFile_remove_self st _

/-- Witness for C1: a miss on an empty cache, a fresh hit, and an expired
entry, at concrete inputs. -/
theorem C1_get_cached_file_witness :
    (get_cached_file ⟨"/tmp/sandbox_code_cache", 1073741824, 86400⟩ ⟨true, []⟩ 6 "x" "py" "" =
      (⟨true, []⟩, none)) ∧
    (get_cached_file ⟨"/tmp/sandbox_code_cache", 1073741824, 86400⟩
        ⟨true, [⟨entryName "x" "py" "", "x", 5⟩]⟩ 6 "x" "py" "" =
      (touchFile ⟨true, [⟨entryName "x" "py" "", "x", 5⟩]⟩ (entryName "x" "py" "") 6,
       some (filePath ⟨"/tmp/sandbox_code_cache", 1073741824, 86400⟩ (entryName "x" "py" "")))) ∧
    ((get_cached_file ⟨"/tmp/sandbox_code_cache", 1073741824, 0⟩
        ⟨true, [⟨entryName "x" "py" "", "x", 5⟩]⟩ 6 "x" "py" "").2 = none ∧
     findFile (get_cached_file ⟨"/tmp/sandbox_code_cache", 1073741824, 0⟩
        ⟨true, [⟨entryName "x" "py" "", "x", 5⟩]⟩ 6 "x" "py" "").1 (entryName "x" "py" "") = none) :=
  ⟨(C1_get_cached_file _ _ _ _ _ _).1 rfl,
   ((C1_get_cached_file _ _ _ _ _ _).2.1 ⟨entryName "x" "py" "", "x", 5⟩
      (by simp [findFile]) (by decide)).1,
   (C1_get_cached_file _ _ _ _ _ _).2.2 ⟨entryName "x" "py" "", "x", 5⟩
      (by simp [findFile]) (by decide)⟩

/-! ### Claim C3 -/

/-- C3 counterexample: the `:` delimiter is ambiguous.  The distinct triples
`(code, language, suffix) = ("d", "a", "b:c")` and `("d", "a:b", "c")` both
produce the digest input `"a:b:c:d"`, hence the same key — refuting that any
two triples differing in at least one field yield different keys. -/
theorem C3_counterexample :
    compute_hash "d" "a" "b:c" = compute_hash "d" "a:b" "c" ∧
    ("d", "a", "b:c") ≠ (("d", "a:b", "c") : String × String × String) := by
  constructor
  · unfold compute_hash
    rw [show hashContent "d" "a" "b:c" = hashContent "d" "a:b" "c" from by decide]
  · decide

/-- C3 (amended): `_compute_hash` is the pure deterministic function mapping
`(code, language, suffix)` to the hex-encoded 256-bit digest (64 hex
characters) of `f"{language}:{suffix}:{code}"`; equal triples always yield
equal keys, and two triples yield distinct digest inputs whenever they
differ, **provided** `language` and `suffix` contain no `:` character (with
a `:` inside those fields, distinct triples can collide, see the
counterexample). -/
theorem C3_compute_hash (code language suffix : String) :
    compute_hash code language suffix =
      sha256hex (utf8Bytes (language ++ ":" ++ suffix ++ ":" ++ code)) ∧
    (compute_hash code language suffix).length = 64 ∧
    (∀ c2 l2 s2 : String, code = c2 → language = l2 → suffix = s2 →
      compute_hash code language suffix = compute_hash c2 l2 s2) ∧
    (∀ c2 l2 s2 : String, ':' ∉ language.data → ':' ∉ suffix.data →
      ':' ∉ l2.data → ':' ∉ s2.data →
      hashContent code language suffix = hashContent c2 l2 s2 →
      code = c2 ∧ language = l2 ∧ suffix = s2) := by
  refine ⟨rfl, compute_hash_length _ _ _, ?_, ?_⟩
  · intro c2 l2 s2 h1 h2 h3
    rw [h1, h2, h3]
  · intro c2 l2 s2 hl1 hs1 hl2 hs2 h
    exact hashContent_inj hl1 hs1 hl2 hs2 h

/-- Witness for C3 (amended) at concrete inputs. -/
theorem C3_compute_hash_witness :
    (compute_hash "x" "py" ".py").length = 64 ∧
    ("x" = "x" ∧ "py" = "py" ∧ ".py" = ".py") :=
  ⟨(C3_compute_hash "x" "py" ".py").2.1,
   (C3_compute_hash "x" "py" ".py").2.2.2 "x" "py" ".py" (by decide) (by decide)
     (by decide) (by decide) rfl⟩

/-! ### Claim C2 -/

/-- A 250-byte payload (the spec's example entry content). -/
def ex250 : String := String.mk (List.replicate 250 'a')

/-- The spec's example directory: five 250-byte entries stored in order. -/
def exFiles : List FileEntry :=
  [⟨"E1", ex250, 1⟩, ⟨"E2", ex250, 2⟩, ⟨"E3", ex250, 3⟩, ⟨"E4", ex250, 4⟩, ⟨"E5", ex250, 5⟩]

set_option maxRecDepth 40000 in
/-- C2: the eviction pass is a no-op when the total size is at most the
ceiling `max_size_bytes`; when the total exceeds the ceiling it deletes a
prefix of the entries in ascending last-access order (oldest first),
stopping as soon as the remaining total is at most the floor
`0.8 * max_size_bytes` — so afterwards the total is at most the floor, and
the deleted entries are exactly the oldest ones needed (deleting fewer would
leave the total above the floor).  In the concrete scenario with ceiling
1000 bytes and five 250-byte entries E1..E5 stored in order, exactly E1 and
E2 are deleted, leaving E3..E5 with total 750 bytes. -/
theorem C2_cleanup_if_needed (c : CodeCache) (st : CacheState) (h : WF st) :
    (get_cache_size st ≤ c.max_size_bytes → cleanup_if_needed c st = st) ∧
    (get_cache_size st > c.max_size_bytes →
      (sortFiles st.files).Perm st.files ∧
      (sortFiles st.files).Pairwise (fun a b => a.mtime ≤ b.mtime) ∧
      ∃ k, (cleanup_if_needed c st).files.Perm ((sortFiles st.files).drop k) ∧
        ((get_cache_size (cleanup_if_needed c st) : ℚ) ≤ (c.max_size_bytes : ℚ) * 0.8) ∧
        (∀ j, j < k →
          ¬ ((sumSizes ((sortFiles st.files).drop j) : ℚ) ≤ (c.max_size_bytes : ℚ) * 0.8))) ∧
    (cleanup_if_needed ⟨"/tmp/sandbox_code_cache", 1000, 86400⟩ ⟨true, exFiles⟩ =
      ⟨true, [⟨"E3", ex250, 3⟩, ⟨"E4", ex250, 4⟩, ⟨"E5", ex250, 5⟩]⟩) := by
  refine ⟨cleanup_noop c st, ?_, ?_⟩
  · intro hover
    obtain ⟨k, _, hp, hfl, hmin⟩ := cleanup_over c st h hover
    refine ⟨sortFiles_perm _, (sortFiles_sorted st.files).imp (fun hab => fileLE_mtime_le hab),
      k, hp, ?_, ?_⟩
    · rw [← floor_iff_nat]
      have hsz : get_cache_size (cleanup_if_needed c st) =
          sumSizes ((sortFiles st.files).drop k) := sumSizes_perm hp
      rw [hsz]
      exact hfl
    · intro j hj
      rw [← floor_iff_nat]
      exact hmin j hj
  · have hsort : sortFiles exFiles = exFiles := sortFiles_of_sorted (by decide)
    show cleanup_if_needed ⟨"/tmp/sandbox_code_cache", 1000, 86400⟩ ⟨true, exFiles⟩ = _
    unfold cleanup_if_needed cleanup_if_needed_err
    simp only [get_cache_size, hsort]
    decide

set_option maxRecDepth 40000 in
/-- Witness for C2: the concrete E1..E5 eviction scenario and the no-op case
on an under-ceiling directory. -/
theorem C2_cleanup_if_needed_witness :
    (cleanup_if_needed ⟨"/tmp/sandbox_code_cache", 1000, 86400⟩ ⟨true, exFiles⟩ =
      ⟨true, [⟨"E3", ex250, 3⟩, ⟨"E4", ex250, 4⟩, ⟨"E5", ex250, 5⟩]⟩) ∧
    (cleanup_if_needed ⟨"/tmp/sandbox_code_cache", 1000, 86400⟩
        ⟨true, [⟨"E1", ex250, 1⟩]⟩ = ⟨true, [⟨"E1", ex250, 1⟩]⟩) :=
  ⟨(C2_cleanup_if_needed ⟨"/tmp/sandbox_code_cache", 1000, 86400⟩ ⟨true, exFiles⟩
      (by decide)).2.2,
   (C2_cleanup_if_needed ⟨"/tmp/sandbox_code_cache", 1000, 86400⟩ ⟨true, [⟨"E1", ex250, 1⟩]⟩
      (by decide)).1 (by decide)⟩

/-! ### Claim C6 -/

/-- C6 counterexample: ceiling 10 bytes, two 10-byte entries, the older one
(`a`) failing to delete.  The loop in `_cleanup_if_needed` has no per-file
exception handler, so the error aborts the whole pass before any deletion:
entry `b` — a remaining candidate which the claim says is still evicted —
is untouched. -/
theorem C6_counterexample :
    cleanup_if_needed_err ⟨"/tmp/sandbox_code_cache", 10, 86400⟩ (fun n => n == "a")
        ⟨true, [⟨"a", "0123456789", 1⟩, ⟨"b", "0123456789", 2⟩]⟩ =
      .error ⟨true, [⟨"a", "0123456789", 1⟩, ⟨"b", "0123456789", 2⟩]⟩ ∧
    findFile ⟨true, [⟨"a", "0123456789", 1⟩, ⟨"b", "0123456789", 2⟩]⟩ "b" =
      some ⟨"b", "0123456789", 2⟩ := by
  constructor
  · have hsort : sortFiles [⟨"a", "0123456789", 1⟩, ⟨"b", "0123456789", 2⟩] =
        [⟨"a", "0123456789", 1⟩, ⟨"b", "0123456789", 2⟩] := sortFiles_of_sorted (by decide)
    unfold cleanup_if_needed_err
    simp only [get_cache_size, hsort]
    rfl
  · decide

/-- C6 (amended): the eviction pass has no per-file error handling: an I/O
failure while stat-ing/unlinking a candidate propagates and aborts the pass
at the first failing candidate — entries processed before it stay deleted,
while the failing entry and every remaining candidate (in particular other
old entries) are not deleted. -/
theorem C6_eviction_error (c : CodeCache) (bad : String → Bool) (st st1 : CacheState)
    (h : WF st) (herr : cleanup_if_needed_err c bad st = .error st1) :
    ∃ k f rest, (sortFiles st.files).drop k = f :: rest ∧ bad f.name = true ∧
      (∀ g ∈ (sortFiles st.files).take k, bad g.name = false) ∧
      st1.files.Perm ((sortFiles st.files).drop k) ∧
      f ∈ st1.files ∧ ∀ g ∈ rest, g ∈ st1.files := by
  have hperm : st.files.Perm (sortFiles st.files) := (sortFiles_perm _).symm
  by_cases hover : get_cache_size st > c.max_size_bytes
  · have herr2 : evictLoop c bad (sortFiles st.files)
        (sumSizes (sortFiles st.files) : Int) st = .error st1 := by
      unfold cleanup_if_needed_err at herr
      rw [if_pos hover] at herr
      have hsz : ((get_cache_size st : Nat) : Int) = (sumSizes (sortFiles st.files) : Int) := by
        exact_mod_cast congrArg Nat.cast (sumSizes_perm hperm)
      rwa [hsz] at herr
    obtain ⟨k, f, rest, hdrop, hbad, hp, htake, _⟩ :=
      evictLoop_err c bad (sortFiles st.files) st st1 hperm h.1 herr2
    refine ⟨k, f, rest, hdrop, hbad, htake, hp, ?_, ?_⟩
    · apply hp.symm.subset
      rw [hdrop]
      exact List.mem_cons_self _ _
    · intro g hg
      apply hp.symm.subset
      rw [hdrop]
      exact List.mem_cons_of_mem f hg
  · unfold cleanup_if_needed_err at herr
    rw [if_neg hover] at herr
    cases herr

/-- Witness for C6 (amended), at the concrete aborted pass. -/
theorem C6_eviction_error_witness :
    ∃ k f rest,
      (sortFiles [⟨"a", "0123456789", 1⟩, ⟨"b", "0123456789", 2⟩]).drop k = f :: rest ∧
      (fun n => n == "a") f.name = true ∧
      (∀ g ∈ (sortFiles [⟨"a", "0123456789", 1⟩, ⟨"b", "0123456789", 2⟩]).take k,
        (fun n => n == "a") g.name = false) ∧
      (⟨true, [⟨"a", "0123456789", 1⟩, ⟨"b", "0123456789", 2⟩]⟩ : CacheState).files.Perm
        ((sortFiles [⟨"a", "0123456789", 1⟩, ⟨"b", "0123456789", 2⟩]).drop k) ∧
      f ∈ (⟨true, [⟨"a", "0123456789", 1⟩, ⟨"b", "0123456789", 2⟩]⟩ : CacheState).files ∧
      ∀ g ∈ rest, g ∈ (⟨true, [⟨"a", "0123456789", 1⟩, ⟨"b", "0123456789", 2⟩]⟩ : CacheState).files :=
  C6_eviction_error ⟨"/tmp/sandbox_code_cache", 10, 86400⟩ (fun n => n == "a")
    ⟨true, [⟨"a", "0123456789", 1⟩, ⟨"b", "0123456789", 2⟩]⟩
    ⟨true, [⟨"a", "0123456789", 1⟩, ⟨"b", "0123456789", 2⟩]⟩
    (by decide)
    (by
      have hsort : sortFiles [⟨"a", "0123456789", 1⟩, ⟨"b", "0123456789", 2⟩] =
          [⟨"a", "0123456789", 1⟩, ⟨"b", "0123456789", 2⟩] := sortFiles_of_sorted (by decide)
      unfold cleanup_if_needed_err
      simp only [get_cache_size, hsort]
      rfl)

/-! ### Claim C7 -/

/-- C7 counterexample: when the cache root does not exist, `clear()` takes
its `if self.cache_dir.exists()` guard as false and does nothing — the root
still does not exist afterwards, and a subsequent `cache_code_file` raises
(`write_text` on a missing directory, modelled `none`), refuting "after it
returns the cache root exists as an empty directory ... a subsequent
cache_code_file call succeeds". -/
theorem C7_counterexample :
    clear ⟨false, []⟩ = ⟨false, []⟩ ∧
    (clear ⟨false, []⟩).dirExists = false ∧
    cache_code_file ⟨"/tmp/sandbox_code_cache", 1073741824, 86400⟩ (clear ⟨false, []⟩)
      1 "x" "py" "" = none :=
  ⟨rfl, rfl, rfl⟩

/-- C7 (amended): `clear()` never raises; afterwards the directory holds no
entries and `get_stats` reports zero entries and zero size; when the root
existed before the call, the root exists afterwards (recreated empty) and a
subsequent `cache_code_file` returns a path (no error); when the root did
not exist, `clear` is a no-op and the root remains absent. -/
theorem C7_clear (c : CodeCache) (st : CacheState) (h : WF st) :
    (clear st).files = [] ∧
    (get_stats c (clear st)).num_files = 0 ∧
    (get_stats c (clear st)).total_size_mb = 0 ∧
    (st.dirExists = true → (clear st).dirExists = true ∧
      ∀ (now : Int) (code language suffix : String), ∃ st1,
        cache_code_file c (clear st) now code language suffix =
          some (st1, filePath c (entryName code language suffix))) ∧
    (st.dirExists = false → clear st = st) := by
  have hcf : (clear st).files = [] := by
    unfold clear
    by_cases hd : st.dirExists = true
    · rw [if_pos hd]
    · rw [if_neg hd]
      exact h.2 (by simpa using hd)
  refine ⟨hcf, ?_, ?_, ?_, ?_⟩
  · unfold get_stats
    by_cases hd : (clear st).dirExists = true
    · rw [if_pos hd]
      simp [hcf]
    · rw [if_neg hd]
  · unfold get_stats
    by_cases hd : (clear st).dirExists = true
    · rw [if_pos hd]
      simp [get_cache_size, hcf, sumSizes]
    · rw [if_neg hd]
  · intro hd
    have hde : (clear st).dirExists = true := by
      unfold clear
      rw [if_pos hd]
    refine ⟨hde, ?_⟩
    intro now code language suffix
    refine ⟨cleanup_if_needed c (writeFile (clear st) (entryName code language suffix) code now), ?_⟩
    have habs : findFile (clear st) (entryName code language suffix) = none := by
      rw [findFile_eq_none_iff]
      intro f hf
      rw [hcf] at hf
      cases hf
    simp only [cache_code_file, habs, hde, if_true]
  · intro hd
    unfold clear
    rw [if_neg (by simpa using hd)]

/-- Witness for C7 (amended) on a concrete existing root with one entry. -/
theorem C7_clear_witness :
    (clear ⟨true, [⟨"f", "x", 0⟩]⟩).files = [] ∧
    (∃ st1, cache_code_file ⟨"/tmp/sandbox_code_cache", 1073741824, 86400⟩
        (clear ⟨true, [⟨"f", "x", 0⟩]⟩) 1 "x" "py" "" =
      some (st1, filePath ⟨"/tmp/sandbox_code_cache", 1073741824, 86400⟩ (entryName "x" "py" ""))) :=
  ⟨(C7_clear ⟨"/tmp/sandbox_code_cache", 1073741824, 86400⟩ ⟨true, [⟨"f", "x", 0⟩]⟩ (by decide)).1,
   ((C7_clear ⟨"/tmp/sandbox_code_cache", 1073741824, 86400⟩ ⟨true, [⟨"f", "x", 0⟩]⟩
      (by decide)).2.2.2.1 rfl).2 1 "x" "py" ""⟩

/-! ### Claim C8 -/

/-- C8 counterexample: with a missing cache root, the dict returned by
`get_stats` has no `'cache_dir'` key (modelled as `none`) — the claim's
"record containing ... the cache root path" fails at that state. -/
theorem C8_counterexample :
    (get_stats ⟨"/tmp/sandbox_code_cache", 1073741824, 86400⟩ ⟨false, []⟩).cache_dir = none ∧
    (get_stats ⟨"/tmp/sandbox_code_cache", 1073741824, 86400⟩ ⟨false, []⟩).cache_dir ≠
      some "/tmp/sandbox_code_cache" := by
  refine ⟨rfl, ?_⟩
  intro hcontra
  cases hcontra

/-- C8 (amended): `get_stats` is a pure read — a function of the
configuration and the directory state that modifies neither; it always
reports the entry count, the total size (in MB) and the ceiling (in MB),
and it reports the cache root path exactly when the root exists; with a
missing root it reports zero entries and zero size (omitting the root path)
rather than failing. -/
theorem C8_get_stats (c : CodeCache) (st : CacheState) (h : WF st) :
    (get_stats c st).num_files = st.files.length ∧
    (get_stats c st).total_size_mb = (get_cache_size st : ℚ) / 1024 / 1024 ∧
    (get_stats c st).max_size_mb = (c.max_size_bytes : ℚ) / 1024 / 1024 ∧
    (get_stats c st).cache_dir = (if st.dirExists then some c.cache_dir else none) := by
  by_cases hd : st.dirExists = true
  · unfold get_stats
    rw [if_pos hd, if_pos hd]
    exact ⟨rfl, rfl, rfl, rfl⟩
  · have hemp : st.files = [] := h.2 (by simpa using hd)
    unfold get_stats
    rw [if_neg hd, if_neg hd]
    refine ⟨by simp [hemp], ?_, rfl, rfl⟩
    simp [get_cache_size, hemp, sumSizes]

/-- Witness for C8 (amended) at a concrete one-entry state. -/
theorem C8_get_stats_witness :
    (get_stats ⟨"/tmp/sandbox_code_cache", 1073741824, 86400⟩
      ⟨true, [⟨"f", "x", 0⟩]⟩).num_files = 1 ∧
    (get_stats ⟨"/tmp/sandbox_code_cache", 1073741824, 86400⟩
      ⟨true, [⟨"f", "x", 0⟩]⟩).cache_dir = some "/tmp/sandbox_code_cache" :=
  ⟨((C8_get_stats ⟨"/tmp/sandbox_code_cache", 1073741824, 86400⟩
      ⟨true, [⟨"f", "x", 0⟩]⟩ (by decide)).1).trans rfl,
   ((C8_get_stats ⟨"/tmp/sandbox_code_cache", 1073741824, 86400⟩
      ⟨true, [⟨"f", "x", 0⟩]⟩ (by decide)).2.2.2).trans rfl⟩

/-! ### Claim C5 -/

lemma get_cached_file_path (c : CodeCache) (st : CacheState) (now : Int)
    (code language suffix : String) (st1 : CacheState) (p : String)
    (h : get_cached_file c st now code language suffix = (st1, some p)) :
    p = filePath c (entryName code language suffix) := by
  cases hf : findFile st (entryName code language suffix) with
  | none =>
    simp only [get_cached_file, hf] at h
    have h2 := congrArg Prod.snd h
    simp at h2
  | some f =>
    simp only [get_cached_file, hf] at h
    by_cases hage : now - f.mtime < c.ttl_seconds
    · rw [if_pos hage] at h
      have h2 := congrArg Prod.snd h
      simp only at h2
      exact (Option.some.injEq _ _).mp h2.symm
    · rw [if_neg hage] at h
      have h2 := congrArg Prod.snd h
      simp at h2

lemma cache_code_file_path (c : CodeCache) (st : CacheState) (now : Int)
    (code language suffix : String) (st2 : CacheState) (q : String)
    (h : cache_code_file c st now code language suffix = some (st2, q)) :
    q = filePath c (entryName code language suffix) := by
  cases hf : findFile st (entryName code language suffix) with
  | some f =>
    simp only [cache_code_file, hf] at h
    exact congrArg Prod.snd ((Option.some.injEq _ _).mp h).symm
  | none =>
    simp only [cache_code_file, hf] at h
    by_cases hd : st.dirExists = true
    · rw [if_pos hd] at h
      exact congrArg Prod.snd ((Option.some.injEq _ _).mp h).symm
    · rw [if_neg hd] at h
      cases h

/-- C5: `get_or_cache` is exactly the spec's composition — derive the key
once, attempt the lookup, on absent perform the store; it returns
`(path, true)` exactly when `get_cached_file` returns that path, and
otherwise defers to `cache_code_file` returning `(path, false)`, the path
being the same derived path in both branches. -/
theorem C5_get_or_cache (c : CodeCache) (st : CacheState) (now : Int)
    (code language suffix : String) :
    get_or_cache c st now code language suffix =
      get_or_cache_spec c st now code language suffix ∧
    (∀ st1 p, get_cached_file c st now code language suffix = (st1, some p) →
      get_or_cache c st now code language suffix = some (st1, p, true) ∧
      p = filePath c (entryName code language suffix)) ∧
    (∀ st1, get_cached_file c st now code language suffix = (st1, none) →
      get_or_cache c st now code language suffix =
        (cache_code_file c st1 now code language suffix).map (fun r => (r.1, r.2, false)) ∧
      ∀ st2 q, cache_code_file c st1 now code language suffix = some (st2, q) →
        q = filePath c (entryName code language suffix)) := by
  refine ⟨rfl, ?_, ?_⟩
  · intro st1 p h
    exact ⟨by simp only [get_or_cache, h], get_cached_file_path c st now code language suffix st1 p h⟩
  · intro st1 h
    exact ⟨by simp only [get_or_cache, h],
      fun st2 q hq => cache_code_file_path c st1 now code language suffix st2 q hq⟩

/-- Witness for C5: a concrete hit (fresh entry) and a concrete miss (empty
directory). -/
theorem C5_get_or_cache_witness :
    (get_or_cache ⟨"/tmp/sandbox_code_cache", 1073741824, 86400⟩
        ⟨true, [⟨entryName "x" "py" "", "x", 5⟩]⟩ 6 "x" "py" "" =
      some (touchFile ⟨true, [⟨entryName "x" "py" "", "x", 5⟩]⟩ (entryName "x" "py" "") 6,
            filePath ⟨"/tmp/sandbox_code_cache", 1073741824, 86400⟩ (entryName "x" "py" ""), true)) ∧
    (get_or_cache ⟨"/tmp/sandbox_code_cache", 1073741824, 86400⟩ ⟨true, []⟩ 6 "x" "py" "" =
      (cache_code_file ⟨"/tmp/sandbox_code_cache", 1073741824, 86400⟩ ⟨true, []⟩ 6 "x" "py" "").map
        (fun r => (r.1, r.2, false))) :=
  ⟨((C5_get_or_cache ⟨"/tmp/sandbox_code_cache", 1073741824, 86400⟩
      ⟨true, [⟨entryName "x" "py" "", "x", 5⟩]⟩ 6 "x" "py" "").2.1
      (touchFile ⟨true, [⟨entryName "x" "py" "", "x", 5⟩]⟩ (entryName "x" "py" "") 6)
      (filePath ⟨"/tmp/sandbox_code_cache", 1073741824, 86400⟩ (entryName "x" "py" ""))
      (by
        have hfind : findFile ⟨true, [⟨entryName "x" "py" "", "x", 5⟩]⟩ (entryName "x" "py" "") =
            some ⟨entryName "x" "py" "", "x", 5⟩ := by simp [findFile]
        simp only [get_cached_file, hfind]
        rw [if_pos (by decide)])).1,
   ((C5_get_or_cache ⟨"/tmp/sandbox_code_cache", 1073741824, 86400⟩ ⟨true, []⟩ 6 "x" "py" "").2.2
      ⟨true, []⟩ rfl).1⟩

/-! ### Claim C10 -/

/-- C10: for a cache constructed with `ttl_seconds ≤ 0`, `get_cached_file`
never returns a hit: any file at the derived path (its timestamp not in the
future) has non-negative age, hence age `≥ ttl_seconds`, so it is deleted
and `None` returned and no file remains at the derived path; consequently
`get_or_cache` reports `was_cached = false` and takes the write branch of
`cache_code_file` (rewriting the file) on every call with an existing root. -/
theorem C10_nonpositive_ttl (dir : Option String) (mb : Nat) (ttl : Int) (httl : ttl ≤ 0)
    (st : CacheState) (now : Int) (code language suffix : String)
    (hm : ∀ f ∈ st.files, f.mtime ≤ now) :
    (get_cached_file (CodeCache.init dir mb ttl) st now code language suffix).2 = none ∧
    findFile (get_cached_file (CodeCache.init dir mb ttl) st now code language suffix).1
      (entryName code language suffix) = none ∧
    (st.dirExists = true →
      get_or_cache (CodeCache.init dir mb ttl) st now code language suffix =
        some (cleanup_if_needed (CodeCache.init dir mb ttl)
                (writeFile
                  (get_cached_file (CodeCache.init dir mb ttl) st now code language suffix).1
                  (entryName code language suffix) code now),
              filePath (CodeCache.init dir mb ttl) (entryName code language suffix), false)) := by
  cases hf : findFile st (entryName code language suffix) with
  | none =>
    have h1 : get_cached_file (CodeCache.init dir mb ttl) st now code language suffix =
        (st, none) := by
      simp only [get_cached_file, hf]
    refine ⟨by rw [h1], by rw [h1]; exact hf, ?_⟩
    intro hd
    rw [h1]
    simp only [get_or_cache, h1, cache_code_file, hf]
    rw [if_pos hd]
    rfl
  | some f =>
    have hmem := (findFile_some hf).1
    have hage : ¬ now - f.mtime < (CodeCache.init dir mb ttl).ttl_seconds := by
      have hle := hm f hmem
      have httl2 : (CodeCache.init dir mb ttl).ttl_seconds = ttl := rfl
      rw [httl2]
      omega
    have h1 : get_cached_file (CodeCache.init dir mb ttl) st now code language suffix =
        (removeFile st (entryName code language suffix), none) := by
      simp only [get_cached_file, hf]
      rw [if_neg hage]
    have habs : findFile (removeFile st (entryName code language suffix))
        (entryName code language suffix) = none := findFile_remove_self st _
    refine ⟨by rw [h1], by rw [h1]; exact habs, ?_⟩
    intro hd
    rw [h1]
    simp only [get_or_cache, h1, cache_code_file, habs]
    rw [if_pos (by rw [removeFile_dirExists]; exact hd)]
    rfl

/-- Witness for C10: `ttl_seconds = 0`, a file present at the derived path
whose age is 0: the call deletes it and `get_or_cache` rewrites. -/
theorem C10_nonpositive_ttl_witness :
    (get_cached_file (CodeCache.init none 1024 0)
      ⟨true, [⟨entryName "x" "py" "", "x", 5⟩]⟩ 5 "x" "py" "").2 = none ∧
    findFile (get_cached_file (CodeCache.init none 1024 0)
      ⟨true, [⟨entryName "x" "py" "", "x", 5⟩]⟩ 5 "x" "py" "").1 (entryName "x" "py" "") = none ∧
    get_or_cache (CodeCache.init none 1024 0)
        ⟨true, [⟨entryName "x" "py" "", "x", 5⟩]⟩ 5 "x" "py" "" =
      some (cleanup_if_needed (CodeCache.init none 1024 0)
              (writeFile
                (get_cached_file (CodeCache.init none 1024 0)
                  ⟨true, [⟨entryName "x" "py" "", "x", 5⟩]⟩ 5 "x" "py" "").1
                (entryName "x" "py" "") "x" 5),
            filePath (CodeCache.init none 1024 0) (entryName "x" "py" ""), false) := by
  have h := C10_nonpositive_ttl none 1024 0 (by decide)
    ⟨true, [⟨entryName "x" "py" "", "x", 5⟩]⟩ 5 "x" "py" ""
    (by
      intro f hfmem
      rw [List.mem_singleton] at hfmem
      subst hfmem
      decide)
  exact ⟨h.1, h.2.1, h.2.2 rfl⟩

/-! ### Claim C4 -/

set_option maxRecDepth 100000 in
/-- C4 counterexample: with `max_size_bytes = 0` and a 1-byte payload, the
first `cache_code_file` writes the file and the post-write eviction pass
immediately deletes it: the call still returns the path, but no file exists
at that path afterwards — refuting "after each call the file at that path
exists with content exactly equal to code" (and a second call then rewrites
instead of only touching). -/
theorem C4_counterexample :
    cache_code_file ⟨"/tmp/sandbox_code_cache", 0, 86400⟩ ⟨true, []⟩ 1 "x" "py" "" =
      some (⟨true, []⟩, filePath ⟨"/tmp/sandbox_code_cache", 0, 86400⟩ (entryName "x" "py" "")) ∧
    findFile (⟨true, []⟩ : CacheState) (entryName "x" "py" "") = none := by
  refine ⟨?_, rfl⟩
  have habs : findFile (⟨true, []⟩ : CacheState) (entryName "x" "py" "") = none := rfl
  simp only [cache_code_file, habs]
  rw [if_true]
  have hw : writeFile (⟨true, []⟩ : CacheState) (entryName "x" "py" "") "x" 1 =
      ⟨true, [⟨entryName "x" "py" "", "x", 1⟩]⟩ := rfl
  rw [hw]
  have hsort : sortFiles [⟨entryName "x" "py" "", "x", 1⟩] =
      [⟨entryName "x" "py" "", "x", 1⟩] :=
    sortFiles_of_sorted (List.pairwise_singleton _ _)
  have hclean : cleanup_if_needed ⟨"/tmp/sandbox_code_cache", 0, 86400⟩
      ⟨true, [⟨entryName "x" "py" "", "x", 1⟩]⟩ = ⟨true, []⟩ := by
    unfold cleanup_if_needed cleanup_if_needed_err
    simp only [get_cache_size, hsort]
    rfl
  rw [hclean]

/-- C4 (amended): provided the entry is not already present, the write time
is later than every stored entry's timestamp, the root exists, and the
payload's byte size is within the eviction floor `0.8 * max_size_bytes`
(without the size proviso the counterexample applies: the post-write
eviction pass can delete the fresh file), two successive `cache_code_file`
calls return the same path; after each call the file at that path exists
with content exactly `code`; and the second call performs no write and no
eviction pass — the resulting state is exactly the first state with that
entry's timestamp refreshed. -/
theorem C4_cache_code_file (c : CodeCache) (st : CacheState) (now1 now2 : Int)
    (code language suffix : String) (h : WF st)
    (hd : st.dirExists = true)
    (habs : findFile st (entryName code language suffix) = none)
    (hnew : ∀ f ∈ st.files, f.mtime < now1)
    (hfit : (byteSize code : ℚ) ≤ (c.max_size_bytes : ℚ) * 0.8) :
    ∃ st1 st2,
      cache_code_file c st now1 code language suffix =
        some (st1, filePath c (entryName code language suffix)) ∧
      cache_code_file c st1 now2 code language suffix =
        some (st2, filePath c (entryName code language suffix)) ∧
      findFile st1 (entryName code language suffix) =
        some ⟨entryName code language suffix, code, now1⟩ ∧
      findFile st2 (entryName code language suffix) =
        some ⟨entryName code language suffix, code, now2⟩ ∧
      st2 = touchFile st1 (entryName code language suffix) now2 := by
  have hfit2 : 5 * (byteSize code : Int) ≤ 4 * (c.max_size_bytes : Int) :=
    (floor_iff_nat c.max_size_bytes (byteSize code)).mpr hfit
  have hWFw : WF (writeFile st (entryName code language suffix) code now1) :=
    WF_write h hd (entryName code language suffix) code now1
  have hwfiles : (writeFile st (entryName code language suffix) code now1).files =
      st.files ++ [⟨entryName code language suffix, code, now1⟩] :=
    write_files_of_absent habs code now1
  have hmemw : (⟨entryName code language suffix, code, now1⟩ : FileEntry) ∈
      (writeFile st (entryName code language suffix) code now1).files := by
    rw [hwfiles]
    exact List.mem_append_right _ (List.mem_singleton_self _)
  have hmax : ∀ g ∈ (writeFile st (entryName code language suffix) code now1).files,
      g ≠ ⟨entryName code language suffix, code, now1⟩ →
      g.mtime < (⟨entryName code language suffix, code, now1⟩ : FileEntry).mtime := by
    intro g hg hne
    rw [hwfiles] at hg
    rcases List.mem_append.mp hg with h1 | h1
    · exact hnew g h1
    · rw [List.mem_singleton] at h1
      exact absurd h1 hne
  have hkeep : (⟨entryName code language suffix, code, now1⟩ : FileEntry) ∈
      (cleanup_if_needed c (writeFile st (entryName code language suffix) code now1)).files :=
    cleanup_keeps_newest c _ hWFw hmemw hmax hfit2
  have hWF1 : WF (cleanup_if_needed c (writeFile st (entryName code language suffix) code now1)) :=
    WF_cleanup c _ hWFw
  have hfind1 : findFile
      (cleanup_if_needed c (writeFile st (entryName code language suffix) code now1))
      (entryName code language suffix) =
      some ⟨entryName code language suffix, code, now1⟩ :=
    findFile_of_mem hWF1.1 hkeep
  refine ⟨cleanup_if_needed c (writeFile st (entryName code language suffix) code now1),
    touchFile (cleanup_if_needed c (writeFile st (entryName code language suffix) code now1))
      (entryName code language suffix) now2, ?_, ?_, hfind1, ?_, rfl⟩
  · simp only [cache_code_file, habs]
    rw [if_pos hd]
  · simp only [cache_code_file, hfind1]
  · rw [findFile_touch, hfind1]
    rfl

set_option maxRecDepth 100000 in
/-- Witness for C4 (amended) at concrete inputs (empty root, 1-byte payload,
ceiling 1000 bytes). -/
theorem C4_cache_code_file_witness :
    ∃ st1 st2,
      cache_code_file ⟨"/tmp/sandbox_code_cache", 1000, 86400⟩ ⟨true, []⟩ 1 "x" "py" "" =
        some (st1, filePath ⟨"/tmp/sandbox_code_cache", 1000, 86400⟩ (entryName "x" "py" "")) ∧
      cache_code_file ⟨"/tmp/sandbox_code_cache", 1000, 86400⟩ st1 2 "x" "py" "" =
        some (st2, filePath ⟨"/tmp/sandbox_code_cache", 1000, 86400⟩ (entryName "x" "py" "")) ∧
      findFile st1 (entryName "x" "py" "") = some ⟨entryName "x" "py" "", "x", 1⟩ ∧
      findFile st2 (entryName "x" "py" "") = some ⟨entryName "x" "py" "", "x", 2⟩ ∧
      st2 = touchFile st1 (entryName "x" "py" "") 2 :=
  C4_cache_code_file ⟨"/tmp/sandbox_code_cache", 1000, 86400⟩ ⟨true, []⟩ 1 2 "x" "py" ""
    (by decide) rfl rfl (by simp)
    ((floor_iff_nat 1000 (byteSize "x")).mp (by decide))

/-! ### Claim C9 -/

/-- C9: a `get_cached_file` hit and a duplicate `cache_code_file` call both
replace the matched entry's state by `touchFile` (timestamp refreshed to
`now`); and for any other stored entry `f` older than `now`, if a
subsequent eviction pass deletes the refreshed entry, it has also deleted
`f` — the refreshed entry survives in preference to an entry that was not
re-accessed. -/
theorem C9_recency (c : CodeCache) (st : CacheState) (now : Int)
    (code language suffix : String) (h : WF st) (a f : FileEntry)
    (hfind : findFile st (entryName code language suffix) = some a)
    (hhit : now - a.mtime < c.ttl_seconds)
    (hf : f ∈ st.files) (hfa : f ≠ a) (hfm : f.mtime < now) :
    get_cached_file c st now code language suffix =
      (touchFile st (entryName code language suffix) now,
       some (filePath c (entryName code language suffix))) ∧
    cache_code_file c st now code language suffix =
      some (touchFile st (entryName code language suffix) now,
            filePath c (entryName code language suffix)) ∧
    (findFile (cleanup_if_needed c (touchFile st (entryName code language suffix) now))
        (entryName code language suffix) = none →
      findFile (cleanup_if_needed c (touchFile st (entryName code language suffix) now))
        f.name = none) := by
  obtain ⟨hamem, haname⟩ := findFile_some hfind
  refine ⟨?_, ?_, ?_⟩
  · simp only [get_cached_file, hfind]
    rw [if_pos hhit]
  · simp only [cache_code_file, hfind]
  · intro hnone
    have hWF1 : WF (touchFile st (entryName code language suffix) now) := WF_touch h _ now
    have hfn : f.name ≠ entryName code language suffix := by
      intro he
      exact hfa (List.inj_on_of_nodup_map h.1 hf hamem (by rw [he, haname]))
    have hf1 : f ∈ (touchFile st (entryName code language suffix) now).files :=
      mem_touch_of_ne hf hfn
    have ha1 : (⟨a.name, a.content, now⟩ : FileEntry) ∈
        (touchFile st (entryName code language suffix) now).files := by
      have := findFile_touch st (entryName code language suffix) now
      rw [hfind] at this
      exact (findFile_some this).1
    have hadel : (⟨a.name, a.content, now⟩ : FileEntry) ∉
        (cleanup_if_needed c (touchFile st (entryName code language suffix) now)).files := by
      intro hmem2
      exact absurd haname
        (findFile_eq_none_iff.mp hnone (⟨a.name, a.content, now⟩ : FileEntry) hmem2)
    have hfdel : f ∉
        (cleanup_if_needed c (touchFile st (entryName code language suffix) now)).files :=
      cleanup_lru c _ hWF1 hf1 ha1 hfm hadel
    rw [findFile_eq_none_iff]
    intro g hg hgn
    have hg1 : g ∈ (touchFile st (entryName code language suffix) now).files :=
      cleanup_subset c _ hWF1 hg
    have hgf : g = f := List.inj_on_of_nodup_map hWF1.1 hg1 hf1 hgn
    exact hfdel (hgf ▸ hg)

set_option maxRecDepth 100000 in
/-- Witness for C9: ceiling 0 forces the pass to delete everything, so the
refreshed entry is deleted — and the theorem then forces the stale entry
`b` to be deleted as well. -/
theorem C9_recency_witness :
    findFile (cleanup_if_needed ⟨"/tmp/sandbox_code_cache", 0, 86400⟩
      (touchFile ⟨true, [⟨"b", "y", 3⟩, ⟨entryName "x" "py" "", "x", 5⟩]⟩
        (entryName "x" "py" "") 6)) (entryName "x" "py" "") = none ∧
    findFile (cleanup_if_needed ⟨"/tmp/sandbox_code_cache", 0, 86400⟩
      (touchFile ⟨true, [⟨"b", "y", 3⟩, ⟨entryName "x" "py" "", "x", 5⟩]⟩
        (entryName "x" "py" "") 6)) "b" = none := by
  have htouch : touchFile ⟨true, [⟨"b", "y", 3⟩, ⟨entryName "x" "py" "", "x", 5⟩]⟩
      (entryName "x" "py" "") 6 =
      ⟨true, [⟨"b", "y", 3⟩, ⟨entryName "x" "py" "", "x", 6⟩]⟩ := by decide
  have hsort : sortFiles [⟨"b", "y", 3⟩, ⟨entryName "x" "py" "", "x", 6⟩] =
      [⟨"b", "y", 3⟩, ⟨entryName "x" "py" "", "x", 6⟩] := sortFiles_of_sorted (by decide)
  have hclean : cleanup_if_needed ⟨"/tmp/sandbox_code_cache", 0, 86400⟩
      ⟨true, [⟨"b", "y", 3⟩, ⟨entryName "x" "py" "", "x", 6⟩]⟩ = ⟨true, []⟩ := by
    unfold cleanup_if_needed cleanup_if_needed_err
    simp only [get_cache_size, hsort]
    rfl
  have h1 : findFile (cleanup_if_needed ⟨"/tmp/sandbox_code_cache", 0, 86400⟩
      (touchFile ⟨true, [⟨"b", "y", 3⟩, ⟨entryName "x" "py" "", "x", 5⟩]⟩
        (entryName "x" "py" "") 6)) (entryName "x" "py" "") = none := by
    rw [htouch, hclean]
    rfl
  refine ⟨h1, ?_⟩
  exact (C9_recency ⟨"/tmp/sandbox_code_cache", 0, 86400⟩
    ⟨true, [⟨"b", "y", 3⟩, ⟨entryName "x" "py" "", "x", 5⟩]⟩ 6 "x" "py" ""
    (by decide) ⟨entryName "x" "py" "", "x", 5⟩ ⟨"b", "y", 3⟩
    (by decide) (by decide) (by decide) (by decide) (by decide)).2.2 h1
